import Mathlib

/-!
Verification development for a minimal UDP publish/subscribe system
("mini-QUIC" broker, publisher and subscriber).

The three C translation units share a common wire layer: a packed header
`mq_hdr_t` (`type:u8, seq:u32, ack:u32, topic_len:u16, data_len:u16`, all
multi-byte fields in network byte order), a packet `mq_packet_t` carrying a
`char topic[128]` and a `uint8_t data[1200]` array, the codec `mq_pack` /
`mq_unpack`, the one-shot `mq_send_ack` and the stop-and-wait `mq_send_reliable`.
The broker additionally keeps a 128-slot subscriber table (`add_sub`,
`find_subs`) and a dispatch loop switching on the packet type.

Modelling conventions used throughout this file:
- machine integers are `Nat`; a store into a `uintN` field is modelled by
  `% 2^N` at the point where the width matters (serialisation, casts);
- byte buffers are `List Nat`; a C `(pointer, length)` pair becomes a
  `List Nat` together with an explicit `len : Nat` for the valid region;
- the fixed C arrays `topic[128]` / `data[1200]` are lists; `carray` rebuilds
  the zero-initialised array picture where the code zero-fills structs;
- `mq_unpack` writes only the meaningful prefixes of `topic` / `data`
  (plus a terminating NUL for `topic`); the decoded packet stores exactly
  those meaningful bytes;
- fallible C functions returning 0 / false become `Option` results;
- the network is an oracle: `mq_send_reliable` receives, for each
  retransmission attempt, the list of datagrams that arrive during that
  attempt's 500 ms wait window, and the broker/publisher mainlines receive a
  boolean oracle giving the outcome of each reliable send they perform.
-/

namespace MQ

/-- Big-endian bytes of a 16-bit value (`htons` + memcpy of a `uint16_t`). -/
def be16 (n : Nat) : List Nat := [n / 256 % 256, n % 256]

/-- Big-endian bytes of a 32-bit value (`htonl` + memcpy of a `uint32_t`). -/
def be32 (n : Nat) : List Nat :=
  [n / 16777216 % 256, n / 65536 % 256, n / 256 % 256, n % 256]

/-- Read a 16-bit big-endian value from two bytes (`ntohs`). -/
def rd16 (a b : Nat) : Nat := a * 256 + b

/-- Read a 32-bit big-endian value from four bytes (`ntohl`). -/
def rd32 (a b c d : Nat) : Nat := ((a * 256 + b) * 256 + c) * 256 + d

/-- `mq_hdr_t`: the packed 13-byte wire header. -/
structure MqHdr where
  type : Nat
  seq : Nat
  ack : Nat
  topic_len : Nat
  data_len : Nat
deriving DecidableEq, Repr

/-- `mq_packet_t`: header plus topic and payload bytes.  For packets built by
the code, `topic`/`data` are the contents of the `char topic[128]` /
`uint8_t data[1200]` arrays (or their meaningful prefix for decoded packets). -/
structure MqPacket where
  hdr : MqHdr
  topic : List Nat
  data : List Nat
deriving DecidableEq, Repr

/-- Serialised header: `type` byte followed by `seq`, `ack`, `topic_len`,
`data_len` in network byte order — the memory image `memcpy(buf, &h, 13)`
produces after `htonl`/`htons`. -/
def hdrBytes (h : MqHdr) : List Nat :=
  h.type % 256 :: (be32 h.seq ++ be32 h.ack ++ be16 h.topic_len ++ be16 h.data_len)

/-- Parse the 13 header bytes (`memcpy(&out->hdr, buf, 13)` + `ntohl`/`ntohs`). -/
def parseHdr (buf : List Nat) : MqHdr :=
  { type := buf.getD 0 0
    seq := rd32 (buf.getD 1 0) (buf.getD 2 0) (buf.getD 3 0) (buf.getD 4 0)
    ack := rd32 (buf.getD 5 0) (buf.getD 6 0) (buf.getD 7 0) (buf.getD 8 0)
    topic_len := rd16 (buf.getD 9 0) (buf.getD 10 0)
    data_len := rd16 (buf.getD 11 0) (buf.getD 12 0) }

/-- `mq_pack(buf, buflen, p)`: serialise header, then the first `topic_len`
bytes of `topic` and the first `data_len` bytes of `data`, each section guarded
by the `off + len > buflen` bound check.  `none` models the C return value 0. -/
def mq_pack (buflen : Nat) (p : MqPacket) : Option (List Nat) :=
  if buflen < 13 then none
  else if p.hdr.topic_len ≠ 0 then
    if 13 + p.hdr.topic_len > buflen then none
    else if p.hdr.data_len ≠ 0 then
      if 13 + p.hdr.topic_len + p.hdr.data_len > buflen then none
      else some (hdrBytes p.hdr ++ p.topic.take p.hdr.topic_len
                  ++ p.data.take p.hdr.data_len)
    else some (hdrBytes p.hdr ++ p.topic.take p.hdr.topic_len)
  else if p.hdr.data_len ≠ 0 then
    if 13 + p.hdr.data_len > buflen then none
    else some (hdrBytes p.hdr ++ p.data.take p.hdr.data_len)
  else some (hdrBytes p.hdr)

/-- The variable-length part of `mq_unpack`: given the declared lengths and the
buffer, run the two bound checks (`off + topic_len > len || topic_len >= 128`,
then `off + data_len > len || data_len > 1200`) in the order the code runs
them, and extract the copied byte ranges. -/
def unpackSections (tl dl : Nat) (buf : List Nat) (len : Nat) :
    Option (List Nat × List Nat) :=
  if tl ≠ 0 then
    if 13 + tl > len ∨ 128 ≤ tl then none
    else if dl ≠ 0 then
      if 13 + tl + dl > len ∨ 1200 < dl then none
      else some ((buf.drop 13).take tl, (buf.drop (13 + tl)).take dl)
    else some ((buf.drop 13).take tl, [])
  else if dl ≠ 0 then
    if 13 + dl > len ∨ 1200 < dl then none
    else some ([], (buf.drop 13).take dl)
  else some ([], [])

/-- `mq_unpack(buf, len, out)`: reject short buffers, parse the header, then
bounds-check and copy the topic and payload sections.  The decoded `topic` and
`data` are the meaningful bytes the code copies (the code additionally
NUL-terminates `out->topic` and leaves the rest of the arrays untouched). -/
def mq_unpack (buf : List Nat) (len : Nat) : Option MqPacket :=
  if len < 13 then none
  else
    match unpackSections (parseHdr buf).topic_len (parseHdr buf).data_len buf len with
    | none => none
    | some s => some { hdr := parseHdr buf, topic := s.1, data := s.2 }

/-- A peer address: `(sin_addr, sin_port)` of a `struct sockaddr_in`. -/
abbrev Addr := Nat × Nat

/-- A UDP datagram as delivered by `recvfrom`: source address plus payload. -/
structure Datagram where
  src : Addr
  bytes : List Nat
deriving DecidableEq, Repr

/-- The ACK test `mq_send_reliable` applies to a received datagram:
`mq_unpack(rbuf, rn, &ap) && ap.hdr.type == MQ_ACK && ap.hdr.ack == seq`.
`recvfrom` reads at most the 1600 bytes of `rbuf`, so a longer datagram is
truncated.  The recorded source address is not part of the test. -/
def ackMatches (seq : Nat) (bs : List Nat) : Bool :=
  match mq_unpack (bs.take 1600) (bs.take 1600).length with
  | some ap => ap.hdr.type == 6 && ap.hdr.ack == seq
  | none => false

/-- Whether a datagram completes the wait inside `mq_send_reliable`. -/
def qualifies (seq : Nat) (d : Datagram) : Bool :=
  ackMatches seq d.bytes

/-- The inner `select`/`recvfrom` loop of one attempt: succeed exactly when
some datagram arriving in this attempt's 500 ms window qualifies. -/
def wait_for_ack (seq : Nat) (dgs : List Datagram) : Bool :=
  dgs.any (fun d => qualifies seq d)

/-- The `while (tries < MQ_MAX_RETX)` loop of `mq_send_reliable`, with
`remaining = MQ_MAX_RETX - tries`.  Each iteration sends `bytes` once (recorded
in the second component) and then waits on the datagrams `env tries` of that
attempt's window.  Returns success flag and the list of transmissions. -/
def send_loop (bytes : List Nat) (seq : Nat) (env : Nat → List Datagram) :
    Nat → Nat → Bool × List (List Nat)
  | _, 0 => (false, [])
  | tries, r + 1 =>
    if wait_for_ack seq (env tries) then (true, [bytes])
    else
      let rest := send_loop bytes seq env (tries + 1) r
      (rest.1, bytes :: rest.2)

/-- `mq_send_reliable`: pack into the 1600-byte stack buffer (failure returns
-1 with nothing sent), then run up to `MQ_MAX_RETX = 10` send-and-wait
attempts.  Result: success flag and the list of transmitted byte strings. -/
def mq_send_reliable (p : MqPacket) (env : Nat → List Datagram) :
    Bool × List (List Nat) :=
  match mq_pack 1600 p with
  | none => (false, [])
  | some bytes => send_loop bytes p.hdr.seq env 0 10

/-- The zero-initialised packet `mq_send_ack` builds: type `MQ_ACK`, `ack`
field set, everything else zero. -/
def ackPacket (acknum : Nat) : MqPacket :=
  { hdr := { type := 6, seq := 0, ack := acknum, topic_len := 0, data_len := 0 },
    topic := List.replicate 128 0, data := List.replicate 1200 0 }

/-- The bytes `mq_send_ack` puts on the wire: `mq_pack` into a 64-byte buffer
(`sendto` is passed the returned length, so a pack failure would send an empty
datagram — modelled by `getD []`). -/
def ackBytes (acknum : Nat) : List Nat :=
  (mq_pack 64 (ackPacket acknum)).getD []

/-- The zero-initialised `MQ_HELLO_OK` reply packet of the broker. -/
def helloOkPacket : MqPacket :=
  { hdr := { type := 2, seq := 0, ack := 0, topic_len := 0, data_len := 0 },
    topic := List.replicate 128 0, data := List.replicate 1200 0 }

/-- The bytes of the broker's HELLO_OK reply. -/
def helloOkBytes : List Nat := (mq_pack 64 helloOkPacket).getD []

/-- Reading a `char` array as a C string: the bytes before the first NUL. -/
def cstr (l : List Nat) : List Nat := l.takeWhile (fun b => b != 0)

/-- `strlen` on a NUL-terminated `char` array. -/
def strlenA (l : List Nat) : Nat := (cstr l).length

/-- A zero-initialised C array of `size` bytes whose meaningful prefix is
`content`: `content` (clipped to `size`) followed by the remaining zeros. -/
def carray (size : Nat) (content : List Nat) : List Nat :=
  content.take size ++ List.replicate (size - content.length) 0

/-- `strcmp(a, b) == 0` for two NUL-terminated arrays. -/
def streq (a b : List Nat) : Bool := decide (cstr a = cstr b)

/-- `subscriber_t`: peer address, `char topic[128]` array, active flag. -/
structure Subscriber where
  addr : Addr
  topic : List Nat
  active : Bool
deriving DecidableEq, Repr

/-- `subs[i]` (the table has a fixed size, so reads are always in bounds;
the default is irrelevant for in-range indices). -/
def subAt (subs : List Subscriber) (i : Nat) : Subscriber :=
  subs.getD i { addr := (0, 0), topic := [], active := false }

/-- The entry `add_sub` writes into a free slot: the sender's address, the
topic copied with `strncpy(.., .., 127)` into the zero-initialised 128-byte
array, and `active = true`. -/
def newEntry (a : Addr) (topic : List Nat) : Subscriber :=
  { addr := a, topic := carray 128 ((cstr topic).take 127), active := true }

/-- `add_sub`: scan the table for the first slot with `!active`, claim it and
return; if every slot is active, log and leave the table unchanged. -/
def add_sub (subs : List Subscriber) (a : Addr) (topic : List Nat) :
    List Subscriber :=
  match subs with
  | [] => []
  | s :: rest =>
    if s.active then s :: add_sub rest a topic
    else newEntry a topic :: rest

/-- The `for (i...) if (subs[i].active && strcmp(...)==0)` loop of `find_subs`,
carrying the current index `i` and the output count `c` (the loop also stops
as soon as `c` reaches `cap`). -/
def find_subs_go (topic : List Nat) (cap : Nat) :
    List Subscriber → Nat → Nat → List Nat
  | [], _, _ => []
  | s :: rest, i, c =>
    if c < cap then
      if s.active && streq s.topic topic then
        i :: find_subs_go topic cap rest (i + 1) (c + 1)
      else find_subs_go topic cap rest (i + 1) c
    else []

/-- `find_subs(topic, idxs, cap)`: the indices of matching active entries, in
table order, truncated to `cap`. -/
def find_subs (subs : List Subscriber) (topic : List Nat) (cap : Nat) :
    List Nat :=
  find_subs_go topic cap subs 0 0

/-- The forwarded DATA packet the broker builds (from a zeroed `out`) for each
subscriber: type `MQ_DATA`, the publisher's `seq` reused, `topic_len` from
`strlen(p.topic)` (cast to `uint16_t`), the topic copied with `strncpy`, and
`data_len` bytes of payload copied with `memcpy`. -/
def forwardPkt (p : MqPacket) : MqPacket :=
  { hdr := { type := 5, seq := p.hdr.seq, ack := 0,
             topic_len := strlenA p.topic % 65536, data_len := p.hdr.data_len },
    topic := carray 128 ((cstr p.topic).take 127),
    data := carray 1200 (p.data.take p.hdr.data_len) }

/-- Observable network actions of a handler. -/
inductive Action where
  | oneShot (dst : Addr) (bytes : List Nat)
  | reliable (dst : Addr) (pkt : MqPacket) (ok : Bool)
deriving DecidableEq, Repr

/-- The `for (i = 0; i < cnt; i++)` fan-out loop of the DATA case: one
`mq_send_reliable(s, &subs[idxs[i]].addr, ..., &out)` per collected index,
in order; `relOk c` is the outcome of the `c`-th reliable call, which the code
only logs — it never changes the control flow of the loop. -/
def fanout (subs : List Subscriber) (outP : MqPacket) (relOk : Nat → Bool) :
    List Nat → Nat → List Action
  | [], _ => []
  | i :: rest, c =>
    Action.reliable (subAt subs i).addr outP (relOk c)
      :: fanout subs outP relOk rest (c + 1)

/-- The `MQ_DATA` case of the broker's switch: one-shot ACK to the publisher
first, then the reliable fan-out over `find_subs(p.topic, idxs, 64)`. -/
def handle_data (subs : List Subscriber) (src : Addr) (p : MqPacket)
    (relOk : Nat → Bool) : List Action :=
  Action.oneShot src (ackBytes p.hdr.seq)
    :: fanout subs (forwardPkt p) relOk (find_subs subs p.topic 64) 0

/-- The `MQ_SUB` case of the broker's switch: `add_sub(&from, p.topic)` then a
one-shot ACK of the SUB packet's `seq`. -/
def handle_sub (subs : List Subscriber) (src : Addr) (p : MqPacket) :
    List Subscriber × List Action :=
  (add_sub subs src p.topic, [Action.oneShot src (ackBytes p.hdr.seq)])

/-- The broker's dispatch switch on `p.hdr.type`: HELLO → HELLO_OK, SUB →
register + ACK, PUB → ACK, DATA → ACK + fan-out, default → nothing.
Returns the new table and the emitted actions. -/
def broker_dispatch (subs : List Subscriber) (src : Addr) (p : MqPacket)
    (relOk : Nat → Bool) : List Subscriber × List Action :=
  if p.hdr.type = 1 then (subs, [Action.oneShot src helloOkBytes])
  else if p.hdr.type = 3 then handle_sub subs src p
  else if p.hdr.type = 4 then (subs, [Action.oneShot src (ackBytes p.hdr.seq)])
  else if p.hdr.type = 5 then (subs, handle_data subs src p relOk)
  else (subs, [])

/-- One iteration of the broker's receive loop on a datagram of `len` bytes:
`if (!mq_unpack(buf, n, &p)) continue;` then the dispatch switch. -/
def broker_step (subs : List Subscriber) (src : Addr) (bytes : List Nat)
    (len : Nat) (relOk : Nat → Bool) : List Subscriber × List Action :=
  match mq_unpack bytes len with
  | none => (subs, [])
  | some p => broker_dispatch subs src p relOk

/-- ASCII bytes of the literal `"hello #"` used by the publisher's
`snprintf(msg, sizeof(msg), "hello #%d", i+1)`. -/
def helloHashBytes : List Nat := [104, 101, 108, 108, 111, 32, 35]

/-- Decimal digit bytes of `n` (the `%d` rendering; for the C `int` range the
result always fits the 128-byte `msg` buffer, so no truncation occurs). -/
def decDigits (n : Nat) : List Nat := (Nat.toDigits 10 n).map Char.toNat

/-- The payload of the publisher's `i`-th DATA message: `"hello #%d"` with
`i + 1` substituted. -/
def msgBytes (i : Nat) : List Nat := helloHashBytes ++ decDigits (i + 1)

/-- The publisher's PUB announcement packet: zeroed, type `MQ_PUB`, `seq = 1`,
`topic_len = (uint16_t)strlen(topic)` and the topic `strncpy`-ed in.  `topic`
is the NUL-free content of the command-line topic string. -/
def pubPkt (topic : List Nat) : MqPacket :=
  { hdr := { type := 4, seq := 1, ack := 0,
             topic_len := topic.length % 65536, data_len := 0 },
    topic := carray 128 (topic.take 127),
    data := List.replicate 1200 0 }

/-- The publisher's `i`-th DATA packet (zeroed, then filled): type `MQ_DATA`,
`seq = (uint32_t)(2 + i)`, topic as in `pubPkt`, payload `msgBytes i`. -/
def dataPkt (topic : List Nat) (i : Nat) : MqPacket :=
  { hdr := { type := 5, seq := (2 + i) % 4294967296, ack := 0,
             topic_len := topic.length % 65536,
             data_len := (msgBytes i).length % 65536 },
    topic := carray 128 (topic.take 127),
    data := carray 1200 (msgBytes i) }

/-- The publisher's `for (i = 0; i < num; i++)` DATA loop: send the `i`-th
DATA packet reliably; on failure print and `break`.  `ok s` is the outcome of
the reliable send whose packet carries `seq = s`.  Returns the reliably sent
packets in order (including a final failed one). -/
def pub_data_loop (topic : List Nat) (ok : Nat → Bool) :
    Nat → Nat → List MqPacket
  | _, 0 => []
  | i, n + 1 =>
    let d := dataPkt topic i
    if ok d.hdr.seq then d :: pub_data_loop topic ok (i + 1) n
    else [d]

/-- The publisher's mainline after the fire-and-forget HELLO: PUB reliably
with `seq = 1` (exit code 1 on failure), then the DATA loop (exit code 0).
Returns the list of reliably sent packets and the exit code. -/
def publisher_main (topic : List Nat) (num : Nat) (ok : Nat → Bool) :
    List MqPacket × Nat :=
  if ok (pubPkt topic).hdr.seq then (pubPkt topic :: pub_data_loop topic ok 0 num, 0)
  else ([pubPkt topic], 1)

/-! ### Codec lemmas -/

lemma hdrBytes_length (h : MqHdr) : (hdrBytes h).length = 13 := by
  simp [hdrBytes, be32, be16]

lemma parseHdr_hdrBytes (h : MqHdr) (rest : List Nat) :
    parseHdr (hdrBytes h ++ rest) =
      { type := h.type % 256, seq := h.seq % 4294967296, ack := h.ack % 4294967296,
        topic_len := h.topic_len % 65536, data_len := h.data_len % 65536 } := by
  simp only [hdrBytes, be32, be16, List.cons_append, List.append_assoc, List.nil_append,
    parseHdr, List.getD_cons_zero, List.getD_cons_succ, rd32, rd16, MqHdr.mk.injEq]
  refine ⟨trivial, ?_, ?_, ?_, ?_⟩ <;> omega

lemma mq_pack_eq (buflen : Nat) (p : MqPacket)
    (hb : 13 + p.hdr.topic_len + p.hdr.data_len ≤ buflen) :
    mq_pack buflen p =
      some (hdrBytes p.hdr ++ p.topic.take p.hdr.topic_len
              ++ p.data.take p.hdr.data_len) := by
  have h13 : ¬ buflen < 13 := by omega
  by_cases h1 : p.hdr.topic_len = 0 <;> by_cases h2 : p.hdr.data_len = 0 <;>
    simp [mq_pack, h13, h1, h2] <;> omega

lemma unpackSections_packed (h : MqHdr) (topicB dataB : List Nat) (len : Nat)
    (hB : topicB.length = h.topic_len) (hD : dataB.length = h.data_len)
    (htl : h.topic_len < 128) (hdl : h.data_len ≤ 1200)
    (hlen : len = 13 + h.topic_len + h.data_len) :
    unpackSections h.topic_len h.data_len (hdrBytes h ++ topicB ++ dataB) len =
      some (topicB, dataB) := by
  have hdrop13 : (hdrBytes h ++ topicB ++ dataB).drop 13 = topicB ++ dataB := by
    rw [List.append_assoc, List.drop_left' (hdrBytes_length h)]
  have hdroptl : (hdrBytes h ++ topicB ++ dataB).drop (13 + h.topic_len) = dataB := by
    refine List.drop_left' ?_
    simp [hdrBytes_length, hB]
  have htakeT : (topicB ++ dataB).take h.topic_len = topicB := List.take_left' hB
  have htakeD : dataB.take h.data_len = dataB := by rw [← hD, List.take_length]
  by_cases h1 : h.topic_len = 0
  · have hBnil : topicB = [] := by
      refine List.eq_nil_of_length_eq_zero ?_
      omega
    subst hBnil
    by_cases h2 : h.data_len = 0
    · have hDnil : dataB = [] := by
        refine List.eq_nil_of_length_eq_zero ?_
        omega
      subst hDnil
      simp [unpackSections, h1, h2]
    · have hc3 : ¬ (13 + h.data_len > len ∨ 1200 < h.data_len) := by omega
      simp only [List.append_nil, List.nil_append, List.append_assoc] at hdrop13
      simp [unpackSections, h1, h2, hc3, hdrop13, htakeD]
  · have hc1 : ¬ (13 + h.topic_len > len ∨ 128 ≤ h.topic_len) := by omega
    by_cases h2 : h.data_len = 0
    · have hDnil : dataB = [] := by
        refine List.eq_nil_of_length_eq_zero ?_
        omega
      subst hDnil
      have htakeT2 : topicB.take h.topic_len = topicB := by rw [← hB, List.take_length]
      simp only [List.append_nil] at hdrop13
      simp [unpackSections, h1, h2, hc1, hdrop13, htakeT2]
    · have hc2 : ¬ (13 + h.topic_len + h.data_len > len ∨ 1200 < h.data_len) := by omega
      simp only [List.append_assoc] at hdrop13 hdroptl
      simp [unpackSections, h1, h2, hc1, hc2, hdrop13, hdroptl, htakeT, htakeD]

lemma mod_id_hdr (h : MqHdr) (ht : h.type < 256) (hs : h.seq < 4294967296)
    (ha : h.ack < 4294967296) (htl : h.topic_len < 65536) (hdl : h.data_len < 65536) :
    ({ type := h.type % 256, seq := h.seq % 4294967296, ack := h.ack % 4294967296,
       topic_len := h.topic_len % 65536, data_len := h.data_len % 65536 } : MqHdr) = h := by
  cases h with
  | mk t s a tl dl =>
    simp only [MqHdr.mk.injEq]
    simp only [] at ht hs ha htl hdl
    omega

lemma mq_roundtrip_aux (p : MqPacket) (buflen : Nat)
    (ht : p.hdr.type < 256) (hs : p.hdr.seq < 4294967296) (ha : p.hdr.ack < 4294967296)
    (htl : p.hdr.topic_len < 128) (hdl : p.hdr.data_len ≤ 1200)
    (htlen : p.hdr.topic_len ≤ p.topic.length) (hdlen : p.hdr.data_len ≤ p.data.length)
    (hbuf : 13 + p.hdr.topic_len + p.hdr.data_len ≤ buflen) :
    ∃ bytes, mq_pack buflen p = some bytes ∧
      mq_unpack bytes bytes.length =
        some { hdr := p.hdr, topic := p.topic.take p.hdr.topic_len,
               data := p.data.take p.hdr.data_len } := by
  refine ⟨_, mq_pack_eq buflen p hbuf, ?_⟩
  have hBlen : (p.topic.take p.hdr.topic_len).length = p.hdr.topic_len := by
    simp [List.length_take, Nat.min_eq_left htlen]
  have hDlen : (p.data.take p.hdr.data_len).length = p.hdr.data_len := by
    simp [List.length_take, Nat.min_eq_left hdlen]
  have hlen : (hdrBytes p.hdr ++ p.topic.take p.hdr.topic_len
                ++ p.data.take p.hdr.data_len).length =
      13 + p.hdr.topic_len + p.hdr.data_len := by
    simp [hdrBytes_length, hBlen, hDlen]
    omega
  have hparse : parseHdr (hdrBytes p.hdr ++ p.topic.take p.hdr.topic_len
                  ++ p.data.take p.hdr.data_len) = p.hdr := by
    rw [List.append_assoc, parseHdr_hdrBytes]
    exact mod_id_hdr p.hdr ht hs ha (by omega) (by omega)
  have hnotlt : ¬ ((hdrBytes p.hdr ++ p.topic.take p.hdr.topic_len
                ++ p.data.take p.hdr.data_len).length < 13) := by omega
  rw [mq_unpack, if_neg hnotlt]
  simp only [hparse]
  rw [unpackSections_packed p.hdr _ _ _ hBlen hDlen htl hdl hlen]

lemma getD_take_append (buf extra : List Nat) (len i : Nat) (hi : i < len)
    (hl : len ≤ buf.length) :
    (buf.take len ++ extra).getD i 0 = buf.getD i 0 := by
  have h1 : i < (buf.take len).length := by
    simp only [List.length_take]
    omega
  rw [List.getD_append _ _ _ _ h1, List.getD_eq_getElem?_getD,
    List.getElem?_take_of_lt hi, ← List.getD_eq_getElem?_getD]

lemma drop_take_section (buf extra : List Nat) (len off n : Nat)
    (hl : len ≤ buf.length) (h : off + n ≤ len) :
    ((buf.take len ++ extra).drop off).take n = (buf.drop off).take n := by
  have hofflen : off ≤ (buf.take len).length := by
    simp only [List.length_take]
    omega
  rw [List.drop_append_of_le_length hofflen]
  have hn : n ≤ ((buf.take len).drop off).length := by
    simp only [List.length_drop, List.length_take]
    omega
  rw [List.take_append_of_le_length hn, List.drop_take, List.take_take,
    inf_eq_left.mpr (by omega)]

lemma parseHdr_take_append (buf extra : List Nat) (len : Nat) (h13 : 13 ≤ len)
    (hl : len ≤ buf.length) :
    parseHdr (buf.take len ++ extra) = parseHdr buf := by
  have g : ∀ i, i < 13 → (buf.take len ++ extra).getD i 0 = buf.getD i 0 := fun i hi =>
    getD_take_append buf extra len i (by omega) hl
  rw [parseHdr, parseHdr]
  rw [g 0 (by norm_num), g 1 (by norm_num), g 2 (by norm_num), g 3 (by norm_num),
    g 4 (by norm_num), g 5 (by norm_num), g 6 (by norm_num), g 7 (by norm_num),
    g 8 (by norm_num), g 9 (by norm_num), g 10 (by norm_num), g 11 (by norm_num),
    g 12 (by norm_num)]

lemma unpackSections_take_append (tl dl : Nat) (buf extra : List Nat) (len : Nat)
    (hl : len ≤ buf.length) :
    unpackSections tl dl (buf.take len ++ extra) len = unpackSections tl dl buf len := by
  rw [unpackSections, unpackSections]
  by_cases h1 : tl = 0
  · by_cases h2 : dl = 0
    · simp [h1, h2]
    · by_cases h3 : 13 + dl > len ∨ 1200 < dl
      · simp [h1, h2, h3]
      · simp [h1, h2, h3, drop_take_section buf extra len 13 dl hl (by omega)]
  · by_cases h3 : 13 + tl > len ∨ 128 ≤ tl
    · simp [h1, h3]
    · by_cases h2 : dl = 0
      · simp [h1, h2, h3, drop_take_section buf extra len 13 tl hl (by omega)]
      · by_cases h4 : 13 + tl + dl > len ∨ 1200 < dl
        · simp [h1, h2, h3, h4]
        · simp [h1, h2, h3, h4, drop_take_section buf extra len 13 tl hl (by omega),
            drop_take_section buf extra len (13 + tl) dl hl (by omega)]

lemma unpackSections_none_iff (tl dl : Nat) (buf : List Nat) (len : Nat) :
    unpackSections tl dl buf len = none ↔
      ((tl ≠ 0 ∧ (128 ≤ tl ∨ 13 + tl > len)) ∨
        (dl ≠ 0 ∧ (1200 < dl ∨ 13 + tl + dl > len))) := by
  rw [unpackSections]
  by_cases h1 : tl = 0 <;> by_cases h2 : dl = 0 <;> simp [h1, h2] <;> omega

lemma mq_unpack_none_iff (buf : List Nat) (len : Nat) :
    mq_unpack buf len = none ↔
      (len < 13 ∨
        unpackSections (parseHdr buf).topic_len (parseHdr buf).data_len buf len = none) := by
  rw [mq_unpack]
  by_cases h0 : len < 13
  · simp [h0]
  · cases hu : unpackSections (parseHdr buf).topic_len (parseHdr buf).data_len buf len <;>
      simp [h0, hu]

lemma mq_unpack_take_append (buf extra : List Nat) (len : Nat) (hl : len ≤ buf.length) :
    mq_unpack (buf.take len ++ extra) len = mq_unpack buf len := by
  simp only [mq_unpack]
  by_cases h0 : len < 13
  · simp [h0]
  · rw [parseHdr_take_append buf extra len (by omega) hl,
      unpackSections_take_append _ _ buf extra len hl]

lemma parseHdr_set_type (b t : Nat) (rest : List Nat) :
    parseHdr (t :: rest) =
      { type := t, seq := (parseHdr (b :: rest)).seq, ack := (parseHdr (b :: rest)).ack,
        topic_len := (parseHdr (b :: rest)).topic_len,
        data_len := (parseHdr (b :: rest)).data_len } := by
  simp [parseHdr, List.getD_cons_zero, List.getD_cons_succ]

lemma unpackSections_cons (tl dl a b : Nat) (rest : List Nat) (len : Nat) :
    unpackSections tl dl (a :: rest) len = unpackSections tl dl (b :: rest) len := by
  have hd1 : ∀ x : Nat, (x :: rest).drop 13 = rest.drop 12 := fun _ => rfl
  have hd2 : ∀ x : Nat, (x :: rest).drop (13 + tl) = rest.drop (12 + tl) := by
    intro x
    have h : 13 + tl = (12 + tl) + 1 := by omega
    rw [h, List.drop_succ_cons]
  rw [unpackSections, unpackSections, hd1, hd1, hd2, hd2]

lemma mq_unpack_set_type (bytes : List Nat) (len t : Nat) (p : MqPacket)
    (hl : len ≤ bytes.length) (hp : mq_unpack bytes len = some p) :
    mq_unpack (bytes.set 0 t) len =
      some { hdr := { type := t, seq := p.hdr.seq, ack := p.hdr.ack,
                      topic_len := p.hdr.topic_len, data_len := p.hdr.data_len },
             topic := p.topic, data := p.data } := by
  have h13 : ¬ len < 13 := by
    intro h
    rw [mq_unpack, if_pos h] at hp
    exact absurd hp (by simp)
  cases bytes with
  | nil =>
    exfalso
    simp at hl
    omega
  | cons b rest =>
    simp only [List.set_cons_zero]
    rw [mq_unpack, if_neg h13] at hp
    rw [mq_unpack, if_neg h13, parseHdr_set_type b t rest]
    simp only []
    rw [unpackSections_cons _ _ t b rest len]
    cases hs : unpackSections (parseHdr (b :: rest)).topic_len
        (parseHdr (b :: rest)).data_len (b :: rest) len with
    | none =>
      rw [hs] at hp
      exact absurd hp (by simp)
    | some s =>
      rw [hs] at hp
      simp only [Option.some.injEq] at hp
      rw [← hp]

/-! ### Stop-and-wait ARQ lemmas -/

lemma send_loop_all_fail (bytes : List Nat) (seq : Nat) (env : Nat → List Datagram) :
    ∀ remaining tries,
      (∀ k, k < remaining → wait_for_ack seq (env (tries + k)) = false) →
      send_loop bytes seq env tries remaining = (false, List.replicate remaining bytes) := by
  intro remaining
  induction remaining with
  | zero => intro tries _; rfl
  | succ r ih =>
    intro tries hfail
    rw [send_loop]
    have h0 : wait_for_ack seq (env tries) = false := by
      have h := hfail 0 (by omega)
      simpa using h
    rw [h0]
    have ihh : send_loop bytes seq env (tries + 1) r = (false, List.replicate r bytes) := by
      refine ih (tries + 1) (fun k hk => ?_)
      have harg : tries + 1 + k = tries + (k + 1) := by omega
      rw [harg]
      exact hfail (k + 1) (by omega)
    simp [ihh, List.replicate_succ]

lemma send_loop_first_ack (bytes : List Nat) (seq : Nat) (env : Nat → List Datagram) :
    ∀ m remaining tries, m < remaining →
      wait_for_ack seq (env (tries + m)) = true →
      (∀ j, j < m → wait_for_ack seq (env (tries + j)) = false) →
      send_loop bytes seq env tries remaining = (true, List.replicate (m + 1) bytes) := by
  intro m
  induction m with
  | zero =>
    intro remaining tries hlt hack _
    cases remaining with
    | zero => omega
    | succ r =>
      rw [send_loop]
      simp only [Nat.add_zero] at hack
      simp [hack]
  | succ m ih =>
    intro remaining tries hlt hack hfail
    cases remaining with
    | zero => omega
    | succ r =>
      rw [send_loop]
      have h0 : wait_for_ack seq (env tries) = false := by
        have h := hfail 0 (by omega)
        simpa using h
      rw [h0]
      have ihh : send_loop bytes seq env (tries + 1) r = (true, List.replicate (m + 1) bytes) := by
        refine ih r (tries + 1) (by omega) ?_ (fun j hj => ?_)
        · have harg : tries + 1 + m = tries + (m + 1) := by omega
          rw [harg]
          exact hack
        · have harg : tries + 1 + j = tries + (j + 1) := by omega
          rw [harg]
          exact hfail (j + 1) (by omega)
      simp [ihh, List.replicate_succ]

lemma wait_for_ack_eq_of_bytes_eq (seq : Nat) (l l' : List Datagram)
    (h : l.map Datagram.bytes = l'.map Datagram.bytes) :
    wait_for_ack seq l = wait_for_ack seq l' := by
  have hany : ∀ xs : List Datagram,
      xs.any (fun d => qualifies seq d) =
        (xs.map Datagram.bytes).any (fun bs => ackMatches seq bs) := by
    intro xs
    induction xs with
    | nil => rfl
    | cons d rest ih =>
      simp only [List.any_cons, List.map_cons, qualifies] at ih ⊢
      rw [ih]
  rw [wait_for_ack, wait_for_ack, hany, hany, h]

lemma send_loop_env_congr (bytes : List Nat) (seq : Nat) (env env' : Nat → List Datagram)
    (h : ∀ k, wait_for_ack seq (env k) = wait_for_ack seq (env' k)) :
    ∀ remaining tries,
      send_loop bytes seq env tries remaining = send_loop bytes seq env' tries remaining := by
  intro remaining
  induction remaining with
  | zero => intro _; rfl
  | succ r ih =>
    intro tries
    rw [send_loop, send_loop, h tries]
    cases hw : wait_for_ack seq (env' tries) <;> simp [hw, ih]

/-! ### String and table lemmas -/

lemma cstr_of_no_nul (l : List Nat) (h : ∀ b ∈ l, b ≠ 0) : cstr l = l := by
  induction l with
  | nil => rfl
  | cons a rest ih =>
    rw [cstr, List.takeWhile_cons]
    have ha : (a != 0) = true := by
      simp [bne_iff_ne]
      exact h a (by simp)
    rw [if_pos ha]
    rw [cstr] at ih
    rw [ih (fun b hb => h b (by simp [hb]))]

lemma carray_take (size : Nat) (content : List Nat) (h : content.length ≤ size) :
    (carray size content).take content.length = content := by
  rw [carray, List.take_of_length_le h, List.take_left' rfl]

lemma carray_length (size : Nat) (content : List Nat) (h : content.length ≤ size) :
    (carray size content).length = size := by
  rw [carray]
  simp only [List.length_append, List.length_take, List.length_replicate]
  omega

lemma fanout_eq_map (subs : List Subscriber) (outP : MqPacket) (relOk : Nat → Bool) :
    ∀ (l : List Nat) (c : Nat),
      fanout subs outP relOk l c =
        (List.enumFrom c l).map
          (fun x => Action.reliable (subAt subs x.2).addr outP (relOk x.1)) := by
  intro l
  induction l with
  | nil => intro c; rfl
  | cons i rest ih => intro c; simp [fanout, List.enumFrom_cons, ih]

lemma find_subs_go_eq (topic : List Nat) (cap : Nat) :
    ∀ (l : List Subscriber) (i c : Nat), c ≤ cap →
      find_subs_go topic cap l i c =
        (((List.enumFrom i l).filter
            (fun x => x.2.active && streq x.2.topic topic)).map Prod.fst).take (cap - c) := by
  intro l
  induction l with
  | nil => intro i c _; simp [find_subs_go]
  | cons s rest ih =>
    intro i c hc
    rw [find_subs_go]
    by_cases h1 : c < cap
    · rw [if_pos h1]
      by_cases h2 : (s.active && streq s.topic topic) = true
      · rw [if_pos h2, ih (i + 1) (c + 1) (by omega)]
        simp only [List.enumFrom_cons, List.filter_cons, h2, if_pos, List.map_cons]
        rw [show cap - c = (cap - (c + 1)) + 1 from by omega, List.take_succ_cons]
      · rw [if_neg h2, ih (i + 1) c hc]
        simp [List.enumFrom_cons, List.filter_cons, h2]
    · rw [if_neg h1]
      rw [show cap - c = 0 from by omega]
      simp

lemma findIdx_map_comp {α β : Type} (f : α → β) (p : β → Bool) :
    ∀ l : List α, (l.map f).findIdx p = l.findIdx (fun a => p (f a)) := by
  intro l
  induction l with
  | nil => rfl
  | cons a rest ih => simp [List.findIdx_cons, ih]

/-- The publisher's DATA loop, characterised: it emits the packets for
`i, i+1, ...` up to and including the first one whose reliable send fails. -/
lemma pub_data_loop_eq (topic : List Nat) (ok : Nat → Bool) :
    ∀ (n i : Nat), (∀ k, k < n → (2 + i + k) % 4294967296 = 2 + i + k) →
      pub_data_loop topic ok i n =
        ((List.range n).map (fun k => dataPkt topic (i + k))).take
          ((List.range n).findIdx (fun k => !(ok (2 + i + k))) + 1) := by
  intro n
  induction n with
  | zero => intro i _; rfl
  | succ n ih =>
    intro i hmod
    rw [pub_data_loop]
    have hseq : (dataPkt topic i).hdr.seq = 2 + i := by
      have h := hmod 0 (by omega)
      simp only [Nat.add_zero] at h
      simp [dataPkt, h]
    rw [hseq]
    have hmap : (List.range (n + 1)).map (fun k => dataPkt topic (i + k)) =
        dataPkt topic i :: (List.range n).map (fun k => dataPkt topic (i + 1 + k)) := by
      rw [List.range_succ_eq_map]
      simp only [List.map_cons, Nat.add_zero, List.map_map]
      have hf : ((fun k => dataPkt topic (i + k)) ∘ Nat.succ) =
          (fun k => dataPkt topic (i + 1 + k)) := by
        funext k
        simp only [Function.comp]
        congr 1
        omega
      rw [hf]
    have hidx : (List.range (n + 1)).findIdx (fun k => !(ok (2 + i + k))) =
        bif !(ok (2 + i)) then 0
        else (List.range n).findIdx (fun k => !(ok (2 + (i + 1) + k))) + 1 := by
      rw [List.range_succ_eq_map, List.findIdx_cons]
      simp only [Nat.add_zero]
      cases hok : ok (2 + i) <;> simp only [Bool.not_false, Bool.not_true, cond]
      rw [findIdx_map_comp]
      have hf : (fun a : Nat => !ok (2 + i + a.succ)) =
          (fun k => !ok (2 + (i + 1) + k)) := by
        funext k
        congr 2
        omega
      rw [hf]
    by_cases hok : ok (2 + i) = true
    · rw [if_pos hok, hmap, hidx]
      rw [hok]
      simp only [Bool.not_true, cond_false]
      rw [List.take_succ_cons]
      congr 1
      refine ih (i + 1) (fun k hk => ?_)
      have harg : 2 + (i + 1) + k = 2 + i + (k + 1) := by omega
      rw [harg]
      exact hmod (k + 1) (by omega)
    · rw [if_neg hok, hmap, hidx]
      have hok' : ok (2 + i) = false := by
        cases h : ok (2 + i)
        · rfl
        · exact absurd h hok
      rw [hok']
      simp [List.take_succ_cons]

/-! ### Concrete inputs used by the witness theorems -/

/-- A concrete DATA packet with full-size `topic[128]` / `data[1200]` arrays. -/
def pktW : MqPacket :=
  { hdr := { type := 5, seq := 2, ack := 0, topic_len := 3, data_len := 5 },
    topic := carray 128 [115, 101, 110], data := carray 1200 [104, 111, 108, 97, 33] }

/-- A concrete 20-byte receive buffer whose header declares `topic_len = 300`. -/
def bufW : List Nat := [5, 0, 0, 0, 1, 0, 0, 0, 0, 1, 44, 0, 0, 9, 9, 9, 9, 9, 9, 9]

/-- A concrete ACK-only header. -/
def hdrW : MqHdr := { type := 6, seq := 1, ack := 2, topic_len := 0, data_len := 0 }

/-- The packet `hdrBytes hdrW` decodes to. -/
def pktHdrW : MqPacket := { hdr := hdrW, topic := [], data := [] }

/-- A concrete header-only packet for the ARQ witness. -/
def pkt0 : MqPacket :=
  { hdr := { type := 5, seq := 3, ack := 0, topic_len := 0, data_len := 0 },
    topic := [], data := [] }

/-- A datagram carrying `ackBytes 3` from an arbitrary third-party address. -/
def ackDg : Datagram := { src := (7, 7), bytes := ackBytes 3 }

/-- A two-slot table whose first slot is active and second slot is free. -/
def subsW : List Subscriber :=
  [{ addr := (9, 9), topic := carray 128 [97], active := true },
   { addr := (0, 0), topic := List.replicate 128 0, active := false }]

/-- A concrete well-formed SUB packet with `seq = 4`. -/
def subPkt : MqPacket :=
  { hdr := { type := 3, seq := 4, ack := 0, topic_len := 1, data_len := 0 },
    topic := [97], data := [] }

/-- A concrete well-formed DATA packet as decoded by the broker. -/
def p5 : MqPacket :=
  { hdr := { type := 5, seq := 9, ack := 0, topic_len := 1, data_len := 2 },
    topic := [97], data := [1, 2] }

/-- A one-slot table whose single active entry matches topic `"a"`. -/
def subs5 : List Subscriber :=
  [{ addr := (3, 4), topic := carray 128 [97], active := true }]

/-! ### Claim theorems -/

/-- C1: Round-trip codec.  For every packet whose `topic[128]` array holds a
string of exactly `topic_len < 128` bytes and whose `data_len ≤ 1200`,
`mq_pack` into a sufficiently large buffer succeeds, and `mq_unpack` of the
produced bytes restores the header fields (`type`, `seq`, `ack`, `topic_len`,
`data_len`), the topic bytes and the first `data_len` payload bytes. -/
theorem mq_roundtrip (p : MqPacket) (buflen : Nat)
    (ht : p.hdr.type < 256) (hs : p.hdr.seq < 4294967296) (ha : p.hdr.ack < 4294967296)
    (htl : p.hdr.topic_len < 128) (hdl : p.hdr.data_len ≤ 1200)
    (htop : p.topic.length = 128) (hdat : p.data.length = 1200)
    (hbuf : 13 + p.hdr.topic_len + p.hdr.data_len ≤ buflen) :
    ∃ bytes, mq_pack buflen p = some bytes ∧
      mq_unpack bytes bytes.length =
        some { hdr := p.hdr, topic := p.topic.take p.hdr.topic_len,
               data := p.data.take p.hdr.data_len } :=
  mq_roundtrip_aux p buflen ht hs ha htl hdl (by omega) (by omega) hbuf

theorem mq_roundtrip_witness :
    ∃ bytes, mq_pack 1400 pktW = some bytes ∧
      mq_unpack bytes bytes.length =
        some { hdr := pktW.hdr, topic := pktW.topic.take pktW.hdr.topic_len,
               data := pktW.data.take pktW.hdr.data_len } :=
  mq_roundtrip pktW 1400 (by decide) (by decide) (by decide) (by decide) (by decide)
    (carray_length 128 [115, 101, 110] (by decide))
    (carray_length 1200 [104, 111, 108, 97, 33] (by decide)) (by decide)

/-- C4: Bounds rejection.  `mq_unpack` fails exactly when the buffer is
shorter than the 13-byte fixed header, or the declared `topic_len` is nonzero
and either `≥ 128` or extends past the end, or the declared `data_len` is
nonzero and either `> 1200` or extends past the end; and the result never
depends on bytes beyond the valid `len` region (no out-of-bounds read). -/
theorem mq_unpack_bounds (buf : List Nat) (len : Nat) (hlen : len ≤ buf.length) :
    (mq_unpack buf len = none ↔
      (len < 13 ∨
        ((parseHdr buf).topic_len ≠ 0 ∧
          (128 ≤ (parseHdr buf).topic_len ∨ 13 + (parseHdr buf).topic_len > len)) ∨
        ((parseHdr buf).data_len ≠ 0 ∧
          (1200 < (parseHdr buf).data_len ∨
            13 + (parseHdr buf).topic_len + (parseHdr buf).data_len > len)))) ∧
    (∀ extra : List Nat, mq_unpack (buf.take len ++ extra) len = mq_unpack buf len) := by
  constructor
  · rw [mq_unpack_none_iff, unpackSections_none_iff]
  · intro extra
    exact mq_unpack_take_append buf extra len hlen

theorem mq_unpack_bounds_witness :
    (mq_unpack bufW 20 = none ↔
      (20 < 13 ∨
        ((parseHdr bufW).topic_len ≠ 0 ∧
          (128 ≤ (parseHdr bufW).topic_len ∨ 13 + (parseHdr bufW).topic_len > 20)) ∨
        ((parseHdr bufW).data_len ≠ 0 ∧
          (1200 < (parseHdr bufW).data_len ∨
            13 + (parseHdr bufW).topic_len + (parseHdr bufW).data_len > 20)))) ∧
    (∀ extra : List Nat, mq_unpack (bufW.take 20 ++ extra) 20 = mq_unpack bufW 20) :=
  mq_unpack_bounds bufW 20 (by decide)

/-- C10: the decoder never inspects the `type` byte — overwriting it with any
value (including values outside the defined range 1..6) preserves decode
success and every other decoded field; packets with unrecognised types are
discarded only by the `default` branch of the broker's dispatch switch, which
emits nothing and leaves the table unchanged. -/
theorem unpack_ignores_type :
    (∀ (bytes : List Nat) (len t : Nat) (p : MqPacket), len ≤ bytes.length →
      mq_unpack bytes len = some p →
      mq_unpack (bytes.set 0 t) len =
        some { hdr := { type := t, seq := p.hdr.seq, ack := p.hdr.ack,
                        topic_len := p.hdr.topic_len, data_len := p.hdr.data_len },
               topic := p.topic, data := p.data }) ∧
    (∀ (subs : List Subscriber) (src : Addr) (q : MqPacket) (relOk : Nat → Bool),
      q.hdr.type = 0 ∨ 6 < q.hdr.type →
      broker_dispatch subs src q relOk = (subs, [])) := by
  constructor
  · intro bytes len t p hl hp
    exact mq_unpack_set_type bytes len t p hl hp
  · intro subs src q relOk hq
    have h1 : ¬ q.hdr.type = 1 := by omega
    have h3 : ¬ q.hdr.type = 3 := by omega
    have h4 : ¬ q.hdr.type = 4 := by omega
    have h5 : ¬ q.hdr.type = 5 := by omega
    simp [broker_dispatch, h1, h3, h4, h5]

theorem unpack_ignores_type_witness :
    mq_unpack ((hdrBytes hdrW).set 0 9) 13 =
      some { hdr := { type := 9, seq := 1, ack := 2, topic_len := 0, data_len := 0 },
             topic := [], data := [] } :=
  unpack_ignores_type.1 (hdrBytes hdrW) 13 9 pktHdrW (by decide) (by decide)

/-- C2: ARQ termination.  Once the packet is encoded (which always succeeds
for a C-representable packet, whose sections fit the 1600-byte send buffer):
if no attempt's wait window delivers a qualifying ACK, `mq_send_reliable`
transmits the identical encoded bytes exactly 10 times (`MQ_MAX_RETX`, each
transmission followed by one bounded wait) and returns failure; if the first
qualifying ACK arrives during the k-th attempt's wait (1 ≤ k ≤ 10), it
returns success after exactly k transmissions. -/
theorem mq_send_reliable_arq (p : MqPacket) (env : Nat → List Datagram)
    (bytes : List Nat) (hpack : mq_pack 1600 p = some bytes) :
    ((∀ k, k < 10 → wait_for_ack p.hdr.seq (env k) = false) →
      mq_send_reliable p env = (false, List.replicate 10 bytes)) ∧
    (∀ k, 1 ≤ k → k ≤ 10 →
      wait_for_ack p.hdr.seq (env (k - 1)) = true →
      (∀ j, j < k - 1 → wait_for_ack p.hdr.seq (env j) = false) →
      mq_send_reliable p env = (true, List.replicate k bytes)) := by
  constructor
  · intro hfail
    simp only [mq_send_reliable, hpack]
    exact send_loop_all_fail bytes p.hdr.seq env 10 0
      (fun k hk => by simpa using hfail k hk)
  · intro k h1 h10 hack hfail
    simp only [mq_send_reliable, hpack]
    have h := send_loop_first_ack bytes p.hdr.seq env (k - 1) 10 0 (by omega)
      (by simpa using hack) (fun j hj => by simpa using hfail j hj)
    rw [show k - 1 + 1 = k from by omega] at h
    exact h

theorem mq_send_reliable_arq_witness :
    mq_send_reliable pkt0 (fun _ => []) =
      (false, List.replicate 10 (hdrBytes pkt0.hdr)) :=
  (mq_send_reliable_arq pkt0 (fun _ => []) (hdrBytes pkt0.hdr) (by decide)).1
    (fun _ _ => rfl)

/-- C3: ACK matching is source-blind.  Whether an incoming datagram completes
the wait depends only on its bytes decoding to type ACK with `ack` equal to
the outgoing `seq`; the source address recorded by `recvfrom` is never
compared, so an entire `mq_send_reliable` run is unchanged under arbitrary
changes of the senders' addresses, and a qualifying ACK from any sender makes
the wait succeed immediately. -/
theorem ack_match_source_blind :
    (∀ (seq : Nat) (s s' : Addr) (bs : List Nat),
      qualifies seq { src := s, bytes := bs } = qualifies seq { src := s', bytes := bs }) ∧
    (∀ (p : MqPacket) (env env' : Nat → List Datagram),
      (∀ k, (env k).map Datagram.bytes = (env' k).map Datagram.bytes) →
      mq_send_reliable p env = mq_send_reliable p env') ∧
    (∀ (seq : Nat) (dgs : List Datagram) (d : Datagram) (ap : MqPacket),
      d ∈ dgs →
      mq_unpack (d.bytes.take 1600) (d.bytes.take 1600).length = some ap →
      ap.hdr.type = 6 → ap.hdr.ack = seq →
      wait_for_ack seq dgs = true) := by
  refine ⟨fun seq s s' bs => rfl, ?_, ?_⟩
  · intro p env env' h
    cases hp : mq_pack 1600 p with
    | none => simp [mq_send_reliable, hp]
    | some bytes =>
      simp only [mq_send_reliable, hp]
      exact send_loop_env_congr bytes p.hdr.seq env env'
        (fun k => wait_for_ack_eq_of_bytes_eq p.hdr.seq (env k) (env' k) (h k)) 10 0
  · intro seq dgs d ap hmem hdec htype hackv
    rw [wait_for_ack, List.any_eq_true]
    refine ⟨d, hmem, ?_⟩
    simp only [qualifies, ackMatches, hdec]
    simp [htype, hackv]

theorem ack_match_source_blind_witness :
    wait_for_ack 3 [ackDg] = true :=
  ack_match_source_blind.2.2 3 [ackDg] ackDg
    { hdr := { type := 6, seq := 0, ack := 3, topic_len := 0, data_len := 0 },
      topic := [], data := [] }
    (by simp) (by decide) rfl rfl

/-- C6: `add_sub` stores the entry (address, topic, `active = true`) in the
first inactive slot and changes no other slot; when every slot is active the
table is returned unchanged (the overflow registration is dropped with only a
local log, no partial write). -/
theorem add_sub_spec (subs : List Subscriber) (a : Addr) (t : List Nat) :
    (subs.findIdx (fun s => !s.active) < subs.length →
      add_sub subs a t = subs.set (subs.findIdx (fun s => !s.active)) (newEntry a t)) ∧
    ((∀ s ∈ subs, s.active = true) → add_sub subs a t = subs) ∧
    (∀ k, k ≠ subs.findIdx (fun s => !s.active) →
      (add_sub subs a t).get? k = subs.get? k) := by
  induction subs with
  | nil =>
    refine ⟨fun h => absurd h (by simp), fun _ => rfl, fun k _ => rfl⟩
  | cons s rest ih =>
    obtain ⟨ih1, ih2, ih3⟩ := ih
    by_cases hs : s.active = true
    · have hfi : (s :: rest).findIdx (fun x => !x.active) =
          rest.findIdx (fun x => !x.active) + 1 := by
        simp [List.findIdx_cons, hs]
      have hadd : add_sub (s :: rest) a t = s :: add_sub rest a t := by
        simp only [add_sub]
        rw [if_pos hs]
      refine ⟨?_, ?_, ?_⟩
      · intro hlt
        rw [hfi] at hlt
        simp only [List.length_cons] at hlt
        rw [hadd, hfi, List.set_cons_succ, ih1 (by omega)]
      · intro hall
        rw [hadd, ih2 (fun x hx => hall x (by simp [hx]))]
      · intro k hk
        rw [hfi] at hk
        cases k with
        | zero => rw [hadd]; rfl
        | succ k' =>
          rw [hadd, List.get?_cons_succ, List.get?_cons_succ]
          exact ih3 k' (by omega)
    · have hs' : s.active = false := by
        cases h : s.active
        · rfl
        · exact absurd h hs
      have hfi : (s :: rest).findIdx (fun x => !x.active) = 0 := by
        simp [List.findIdx_cons, hs']
      have hadd : add_sub (s :: rest) a t = newEntry a t :: rest := by
        simp only [add_sub]
        rw [if_neg hs]
      refine ⟨?_, ?_, ?_⟩
      · intro _
        rw [hadd, hfi, List.set_cons_zero]
      · intro hall
        exact absurd (hall s (by simp)) hs
      · intro k hk
        rw [hfi] at hk
        cases k with
        | zero => exact absurd rfl hk
        | succ k' => rw [hadd, List.get?_cons_succ, List.get?_cons_succ]

theorem add_sub_spec_witness :
    add_sub subsW (1, 2) [97] = subsW.set 1 (newEntry (1, 2) [97]) :=
  (add_sub_spec subsW (1, 2) [97]).1 (by decide)

/-- C7: for every well-formed SUB packet the broker replies with a one-shot
ACK carrying the SUB packet's `seq`, and that reply is identical for every
table state — stored or dropped because the table was full, the subscriber is
never told the difference over the wire.  The ACK bytes decode to a packet of
type ACK whose `ack` field is the SUB packet's `seq`. -/
theorem handle_sub_always_acks (subs subs' : List Subscriber) (src : Addr)
    (p : MqPacket) (hseq : p.hdr.seq < 4294967296) :
    (handle_sub subs src p).2 = [Action.oneShot src (ackBytes p.hdr.seq)] ∧
    (handle_sub subs src p).2 = (handle_sub subs' src p).2 ∧
    mq_unpack (ackBytes p.hdr.seq) (ackBytes p.hdr.seq).length =
      some { hdr := { type := 6, seq := 0, ack := p.hdr.seq,
                      topic_len := 0, data_len := 0 },
             topic := [], data := [] } := by
  refine ⟨rfl, rfl, ?_⟩
  obtain ⟨bytes, hp, hu⟩ := mq_roundtrip_aux (ackPacket p.hdr.seq) 64
    (by show (6 : Nat) < 256; norm_num) (by show (0 : Nat) < 4294967296; norm_num) hseq
    (by show (0 : Nat) < 128; norm_num) (by show (0 : Nat) ≤ 1200; norm_num)
    (Nat.zero_le _) (Nat.zero_le _) (by show 13 + 0 + 0 ≤ 64; norm_num)
  have hb : ackBytes p.hdr.seq = bytes := by rw [ackBytes, hp]; rfl
  rw [hb, hu]
  rfl

theorem handle_sub_always_acks_witness :
    mq_unpack (ackBytes subPkt.hdr.seq) (ackBytes subPkt.hdr.seq).length =
      some { hdr := { type := 6, seq := 0, ack := subPkt.hdr.seq,
                      topic_len := 0, data_len := 0 },
             topic := [], data := [] } :=
  (handle_sub_always_acks [] subsW (1, 2) subPkt (by decide)).2.2

/-- C8: `find_subs` returns exactly the indices of the active entries whose
stored topic is `strcmp`-equal (case-sensitive, byte-for-byte) to the query
topic, in increasing table order, truncated to the caller-supplied capacity;
matching entries beyond the capacity are silently omitted. -/
theorem find_subs_spec (subs : List Subscriber) (topic : List Nat) (cap : Nat) :
    find_subs subs topic cap =
      (((List.enumFrom 0 subs).filter
          (fun x => x.2.active && streq x.2.topic topic)).map Prod.fst).take cap := by
  rw [find_subs, find_subs_go_eq topic cap subs 0 0 (by omega), Nat.sub_zero]

/-- C5: DATA dispatch.  On a well-formed DATA packet the broker first sends a
one-shot ACK of the packet's `seq` to the sender, then performs, for each
matching registry entry in table order (truncated to the 64-slot index
buffer), one reliable send of a forwarded DATA packet carrying the same
topic, the same payload bytes and the same `seq`.  The attempt list is the
same for every outcome oracle `relOk`, so one subscriber's failed delivery
never suppresses a later subscriber's attempt. -/
theorem handle_data_fanout (subs : List Subscriber) (src : Addr) (p : MqPacket)
    (relOk : Nat → Bool)
    (hnz : ∀ b ∈ p.topic, b ≠ 0) (hlt : p.topic.length ≤ 127)
    (htl : p.hdr.topic_len = p.topic.length)
    (hdl : p.hdr.data_len ≤ p.data.length) (hdl12 : p.hdr.data_len ≤ 1200) :
    handle_data subs src p relOk =
      Action.oneShot src (ackBytes p.hdr.seq) ::
        (List.enumFrom 0 ((((List.enumFrom 0 subs).filter
            (fun x => x.2.active && streq x.2.topic p.topic)).map Prod.fst).take 64)).map
          (fun x => Action.reliable (subAt subs x.2).addr (forwardPkt p) (relOk x.1)) ∧
    (forwardPkt p).hdr.type = 5 ∧
    (forwardPkt p).hdr.seq = p.hdr.seq ∧
    (forwardPkt p).hdr.topic_len = p.hdr.topic_len ∧
    (forwardPkt p).topic.take p.hdr.topic_len = p.topic ∧
    (forwardPkt p).hdr.data_len = p.hdr.data_len ∧
    (forwardPkt p).data.take p.hdr.data_len = p.data.take p.hdr.data_len := by
  have hcs : cstr p.topic = p.topic := cstr_of_no_nul p.topic hnz
  have hstr : strlenA p.topic = p.topic.length := by rw [strlenA, hcs]
  have htl' : (forwardPkt p).hdr.topic_len = p.hdr.topic_len := by
    simp only [forwardPkt, hstr, htl]
    exact Nat.mod_eq_of_lt (by omega)
  refine ⟨?_, rfl, rfl, htl', ?_, rfl, ?_⟩
  · rw [handle_data, fanout_eq_map, find_subs, find_subs_go_eq p.topic 64 subs 0 0 (by omega),
      Nat.sub_zero]
  · have htop : (forwardPkt p).topic = carray 128 p.topic := by
      rw [forwardPkt]
      simp only [hcs, List.take_of_length_le hlt]
    rw [htop, htl, carray_take 128 p.topic (by omega)]
  · have hdata : (forwardPkt p).data = carray 1200 (p.data.take p.hdr.data_len) := rfl
    have hlen2 : (p.data.take p.hdr.data_len).length = p.hdr.data_len := by
      simp only [List.length_take]
      omega
    have hgoal : ∀ X : List Nat, X.length = p.hdr.data_len →
        (carray 1200 X).take p.hdr.data_len = X := by
      intro X hX
      rw [← hX]
      exact carray_take 1200 X (by omega)
    rw [hdata]
    exact hgoal _ hlen2

theorem handle_data_fanout_witness :
    handle_data subs5 (8, 8) p5 (fun _ => false) =
      [Action.oneShot (8, 8) (ackBytes 9),
       Action.reliable (3, 4) (forwardPkt p5) false] :=
  (handle_data_fanout subs5 (8, 8) p5 (fun _ => false) (by decide) (by decide)
    (by decide) (by decide) (by decide)).1

/-- C9: the publisher sends its PUB announcement reliably with `seq = 1` and
exits with an error if that send fails; otherwise it reliably sends its DATA
messages with strictly increasing `seq` values 2, 3, …, N+1, stopping at the
first DATA whose reliable send fails (the remaining messages are not sent). -/
theorem publisher_seq_spec (topic : List Nat) (num : Nat) (ok : Nat → Bool)
    (hnum : num ≤ 2147483648) :
    (ok 1 = false → publisher_main topic num ok = ([pubPkt topic], 1)) ∧
    (ok 1 = true →
      publisher_main topic num ok =
        (pubPkt topic ::
          ((List.range num).map (dataPkt topic)).take
            ((List.range num).findIdx (fun i => !(ok (2 + i))) + 1), 0)) ∧
    (pubPkt topic).hdr.seq = 1 ∧
    (∀ i, i < num → (dataPkt topic i).hdr.seq = 2 + i) := by
  have hseq1 : (pubPkt topic).hdr.seq = 1 := rfl
  refine ⟨?_, ?_, rfl, ?_⟩
  · intro hok
    rw [publisher_main, hseq1, hok]
    simp
  · intro hok
    rw [publisher_main, hseq1, hok]
    simp only [if_pos]
    have h := pub_data_loop_eq topic ok num 0 (fun k hk => Nat.mod_eq_of_lt (by omega))
    rw [h]
    have hf1 : (fun k => dataPkt topic (0 + k)) = dataPkt topic := by
      funext k
      rw [Nat.zero_add]
    have hf2 : (fun k => !(ok (2 + 0 + k))) = (fun i => !(ok (2 + i))) := by
      funext k
      congr 2
    rw [hf1, hf2]
  · intro i hi
    simp only [dataPkt]
    exact Nat.mod_eq_of_lt (by omega)

theorem publisher_seq_spec_witness :
    publisher_main [97] 2 (fun _ => true) =
      ([pubPkt [97], dataPkt [97] 0, dataPkt [97] 1], 0) :=
  (publisher_seq_spec [97] 2 (fun _ => true) (by norm_num)).2.1 rfl

end MQ
